import Mathlib

/-!
# Verification of the sparser call-pair mining pipeline

Shallow embedding of `src/bin/match_call.rs` and `src/lib.rs` of the
`sparser` repository.  The pure algorithmic content — stream grouping of
records by repository, per-group call-edge resolution and positive/negative
pair synthesis, and positive-pair masking — is translated into executable
Lean definitions.  External collaborators (the tree-sitter parsing engine,
serde JSON-line decoding, file traversal, channels) are out of scope per the
spec and appear as parameters: a line of input is an `Option JsonSample`
(`none` = empty or undecodable line), and the raw call-site names that
tree-sitter captures in a record's code are a parameter `callsFn`.
-/

/-- `JsonSample` from `src/lib.rs` (the input `FunctionRecord`). -/
structure JsonSample where
  func_name : String
  repo : String
  original_string : String
  code : String
  code_tokens : List String
  docstring : String
  docstring_tokens : List String
  deriving DecidableEq, Repr

/-- `CallJsonSample` from the repository (the emitted `TrainingPair`). -/
structure CallJsonSample where
  caller_code : String
  caller_comm : String
  callee_code : String
  callee_comm : String
  label : Bool
  caller_code_tokens : List String
  caller_comm_tokens : List String
  callee_code_tokens : List String
  callee_comm_tokens : List String
  deriving DecidableEq, Repr

/-- `FUNC_CALL_ID_MASK` from `src/lib.rs`. -/
def FUNC_CALL_ID_MASK : String := "<masked_func_id>"

/-- Model of `func_name.split('.').last()` (`match_call.rs` line 182):
the suffix of the name after its final dot, scanning left to right and
restarting the current segment at every `'.'`. -/
def lastSegAux (cur : List Char) : List Char → List Char
  | [] => cur
  | c :: rest => if c = '.' then lastSegAux [] rest else lastSegAux (cur ++ [c]) rest

/-- The last dotted segment of a name. -/
def lastSeg (s : String) : String := String.mk (lastSegAux [] s.toList)

/-- Normalization applied on ingestion (`match_call.rs` lines 181-182):
`func_name` is replaced by its last dotted segment. -/
def normalizeSample (s : JsonSample) : JsonSample :=
  { s with func_name := lastSeg s.func_name }

/-- The grouping loop of `read_input_data` (`match_call.rs` lines 172-204).
State: `ident` is `sample_group_identifier` (initially the empty string,
assigned only inside the boundary branch) and `cur` is
`cur_group_samples`.  A `none` line models an empty or undecodable line
(`continue` / failed `serde_json::from_str`): it is skipped.  A `some`
line is normalized; if its `repo` differs from `ident` and the current
group is non-empty, the current group is emitted, the accumulator is
reset and `ident` is set to the new repo; the record is then pushed.
The final non-empty group is flushed at end of stream. -/
def read_input_data_aux (ident : String) (cur : List JsonSample) :
    List (Option JsonSample) → List (List JsonSample)
  | [] => if cur.isEmpty then [] else [cur]
  | none :: rest => read_input_data_aux ident cur rest
  | some raw :: rest =>
    let s := normalizeSample raw
    if s.repo ≠ ident ∧ ¬ cur.isEmpty then
      cur :: read_input_data_aux s.repo [s] rest
    else
      read_input_data_aux ident (cur ++ [s]) rest

/-- The groups produced from one input file by `read_input_data`. -/
def read_input_data (lines : List (Option JsonSample)) : List (List JsonSample) :=
  read_input_data_aux "" [] lines

/-!
## Per-group pair synthesis (`process_grouped_samples`, lines 229-277)

`other_funcs` is a `BTreeMap<&str, &JsonSample>` collected from the group in
order (later duplicate keys overwrite earlier ones) and is modelled as an
association list sorted strictly by key, built by ordered insertion.
Iterating it (as the negative-pair loop does) yields entries in ascending
key order, exactly as `BTreeMap` iteration does.
-/

/-- Lexicographic comparison of character lists, the order by which Rust's
`BTreeMap<String, _>` keys are arranged (byte-wise comparison of UTF-8
strings, which coincides with code-point-wise comparison). -/
def charListLt : List Char → List Char → Bool
  | [], [] => false
  | [], _ :: _ => true
  | _ :: _, [] => false
  | a :: as, b :: bs => if a < b then true else if b < a then false else charListLt as bs

/-- Strict lexicographic order on strings (Rust `String` `Ord`). -/
def strLt (a b : String) : Bool := charListLt a.toList b.toList

/-- Ordered insertion with overwrite: the model of `BTreeMap::insert`. -/
def btreeInsert (k : String) (v : JsonSample) :
    List (String × JsonSample) → List (String × JsonSample)
  | [] => [(k, v)]
  | (k', v') :: rest =>
    if strLt k k' then (k, v) :: (k', v') :: rest
    else if k = k' then (k, v) :: rest
    else (k', v') :: btreeInsert k v rest

/-- `sample_group.iter().map(|e| (e.func_name, e)).collect::<BTreeMap<_,_>>()`
(lines 243-246): fold the group in order into the ordered map. -/
def buildMap (group : List JsonSample) : List (String × JsonSample) :=
  group.foldl (fun m s => btreeInsert s.func_name s m) []

/-- `other_funcs.retain(|k, _v| *k != &sample.func_name)` (line 247):
the group map without the record's own name. -/
def otherFuncs (group : List JsonSample) (sample : JsonSample) :
    List (String × JsonSample) :=
  (buildMap group).filter (fun kv => kv.1 ≠ sample.func_name)

/-- `find_function_calls` (lines 324-363) runs the tree-sitter call query
over the record's code and inserts a captured call-site name into a set iff
`other_funcs.contains_key(name)`.  The captured raw names are the external
parameter `calls`; the validation filter and the set semantics (each
distinct resolved name kept once) are modelled here.  `List.dedup` is the
canonical representative of the `HashSet` of resolved callee names. -/
def resolvedCallees (group : List JsonSample) (sample : JsonSample)
    (calls : List String) : List String :=
  (calls.filter (fun c => (otherFuncs group sample).any (fun kv => kv.1 == c))).dedup

/-- `non_callees` (lines 251-252): the other-function map with every
resolved callee removed, in ascending key order. -/
def nonCallees (group : List JsonSample) (sample : JsonSample)
    (calls : List String) : List (String × JsonSample) :=
  (otherFuncs group sample).filter
    (fun kv => ¬ (resolvedCallees group sample calls).contains kv.1)

/-- The positive pairs of one record (lines 255-259): one
`(caller, callee, true)` triple per resolved callee, the callee record
looked up in `other_funcs` (the `unwrap` never fails because every resolved
callee was validated against the map, hence the `filterMap`). -/
def posPairs (group : List JsonSample) (sample : JsonSample)
    (calls : List String) : List (JsonSample × JsonSample × Bool) :=
  (resolvedCallees group sample calls).filterMap
    (fun c => ((otherFuncs group sample).find? (fun kv => kv.1 == c)).map
      (fun kv => (sample, kv.2, true)))

/-- The negative pairs of one record (lines 260-269): walk `non_callees`
in map order, emitting `(caller, non_callee, false)` until the quota
`neg_samples_needed = callees.len()` is exhausted. -/
def negPairs (group : List JsonSample) (sample : JsonSample)
    (calls : List String) : List (JsonSample × JsonSample × Bool) :=
  ((nonCallees group sample calls).take
      (resolvedCallees group sample calls).length).map
    (fun kv => (sample, kv.2, false))

/-- All pairs contributed by one record of the group (the body of the
`par_iter().map(...)` closure, lines 235-271). -/
def processSample (group : List JsonSample) (sample : JsonSample)
    (calls : List String) : List (JsonSample × JsonSample × Bool) :=
  posPairs group sample calls ++ negPairs group sample calls

/-- `process_grouped_samples` (lines 229-277): every record of the group is
processed against the whole group and the per-record results are
concatenated in group order (rayon's `collect` preserves order).
`callsFn` gives the raw call-site names tree-sitter captures in a record's
code (a pure function of the record, supplied by the external parser). -/
def process_grouped_samples (callsFn : JsonSample → List String)
    (group : List JsonSample) : List (JsonSample × JsonSample × Bool) :=
  (group.map (fun s => processSample group s (callsFn s))).flatten

/-!
## Positive-pair masking (`run_preprocessing`, lines 100-132)

For a `label = true` pair the caller's code tokens equal to the callee's
name are replaced by `FUNC_CALL_ID_MASK`, and the caller's code string is
rewritten with `regex::Regex::new(&format!(r"\b<name>\b", ...)).replace_all`.
The regex engine is external; it is modelled at the precision the claims
need: `regexOk` models whether compiling the built pattern succeeds (the
`unwrap` at line 116 panics otherwise), and `maskScan` models
word-boundary replace-all for the patterns the code builds from names
made of word characters (for such names the pattern is a literal with a
`\b` assertion on each side).
-/

/-- ASCII word characters: the regex word class (alphanumerics and the
underscore) whose runs the `\b` assertion delimits. -/
def isWordChar (c : Char) : Bool := c.isAlphanum || c = '_'

/-- Word boundary before a word character, given the preceding character
of the original string (`none` = start of string). -/
def bdry : Option Char → Bool
  | none => true
  | some c => !isWordChar c

/-- Word boundary after a word character, given the rest of the string. -/
def bdryA : List Char → Bool
  | [] => true
  | c :: _ => !isWordChar c

/-- Literal prefix test on character lists. -/
def litPre : List Char → List Char → Bool
  | [], _ => true
  | _ :: _, [] => false
  | a :: as, b :: bs => (a = b) && litPre as bs

/-- One pass of word-boundary replace-all: scan the code left to right
with explicit fuel (`maskCode` supplies the code's length, one unit per
consumed position).  `prev` is the character preceding the current
position in the *original* string, against which the regex engine
evaluates `\b`; after a replacement the scan resumes after the matched
name.  A match requires the (non-empty) name at the current position
with a boundary on both sides. -/
def maskScan (name mask : List Char) : Nat → Option Char → List Char → List Char
  | 0, _, s => s
  | _ + 1, _, [] => []
  | fuel + 1, prev, c :: s =>
    if ¬ name.isEmpty ∧ bdry prev ∧ litPre name (c :: s)
        ∧ bdryA ((c :: s).drop name.length) then
      mask ++ maskScan name mask fuel (some (name.getLastD c)) ((c :: s).drop name.length)
    else
      c :: maskScan name mask fuel (some c) s

/-- `re.replace_all(&caller.code, FUNC_CALL_ID_MASK)` (line 117). -/
def maskCode (name mask code : List Char) : List Char :=
  maskScan name mask code.length none code

/-- Does `name` occur at a word-boundary-delimited position of the
string, given the character preceding it (`none` = start)? -/
def hasBOcc (name : List Char) : Option Char → List Char → Bool
  | _, [] => false
  | prev, c :: s =>
    (bdry prev && litPre name (c :: s) && bdryA ((c :: s).drop name.length))
      || hasBOcc name (some c) s

/-- Minimal model of the regex crate's pattern parser on the pattern
class the code builds: escapes must be complete, groups balanced and
character classes closed.  An unmatched `(`, `)` or `[` — as produced by
a callee name containing such a metacharacter — is a compile error. -/
def regexOkAux : List Char → Nat → Bool → Bool
  | [], depth, inClass => depth == 0 && !inClass
  | c :: rest, depth, inClass =>
    if c = '\\' then
      match rest with
      | [] => false
      | _ :: rest' => regexOkAux rest' depth inClass
    else if inClass then
      (if c = ']' then regexOkAux rest depth false else regexOkAux rest depth true)
    else if c = '(' then regexOkAux rest (depth + 1) false
    else if c = ')' then
      (match depth with
        | 0 => false
        | d + 1 => regexOkAux rest d false)
    else if c = '[' then regexOkAux rest depth true
    else regexOkAux rest depth false

/-- Does the pattern compile? -/
def regexOk (p : List Char) : Bool := regexOkAux p 0 false

/-- The pattern `format!(r"\b<name>\b")` of line 116. -/
def buildMaskPattern (name : List Char) : List Char :=
  '\\' :: 'b' :: (name ++ ['\\', 'b'])

/-- The per-pair emission step of `run_preprocessing` (lines 100-132):
for `label = true`, tokens equal to the callee's name become the mask
and the code is rewritten by the compiled word-boundary pattern —
compilation failure panics the worker, modelled as `none`; for
`label = false`, caller data passes through unchanged. -/
def toCallJsonSample : JsonSample × JsonSample × Bool → Option CallJsonSample
  | (caller, callee, true) =>
    if regexOk (buildMaskPattern callee.func_name.toList) then
      some
        { caller_code := String.mk (maskCode callee.func_name.toList
            FUNC_CALL_ID_MASK.toList caller.code.toList)
          caller_comm := caller.docstring
          callee_code := callee.code
          callee_comm := callee.docstring
          label := true
          caller_code_tokens := caller.code_tokens.map
            (fun t => if t = callee.func_name then FUNC_CALL_ID_MASK else t)
          caller_comm_tokens := caller.docstring_tokens
          callee_code_tokens := callee.code_tokens
          callee_comm_tokens := callee.docstring_tokens }
    else none
  | (caller, callee, false) =>
    some
      { caller_code := caller.code
        caller_comm := caller.docstring
        callee_code := callee.code
        callee_comm := callee.docstring
        label := false
        caller_code_tokens := caller.code_tokens
        caller_comm_tokens := caller.docstring_tokens
        callee_code_tokens := callee.code_tokens
        callee_comm_tokens := callee.docstring_tokens }

/-!
## Concrete records for the closed scenarios
-/

/-- Record `f1` of repo `R`, whose code calls `f2` only. -/
def sampleF1 : JsonSample :=
  { func_name := "f1", repo := "R", original_string := "", code := "f2()",
    code_tokens := ["f2"], docstring := "", docstring_tokens := [] }

/-- Record `f2` of repo `R`, calling nothing. -/
def sampleF2 : JsonSample :=
  { func_name := "f2", repo := "R", original_string := "", code := "noop()",
    code_tokens := ["noop"], docstring := "", docstring_tokens := [] }

/-- Record `f3` of repo `R`, calling nothing. -/
def sampleF3 : JsonSample :=
  { func_name := "f3", repo := "R", original_string := "", code := "",
    code_tokens := [], docstring := "", docstring_tokens := [] }

/-- The call-site names tree-sitter captures in scenario B: `f1`'s code
contains exactly one call, to `f2`; the other records contain none that
resolve. -/
def callsScenB (s : JsonSample) : List String :=
  if s.func_name = "f1" then ["f2"] else []

/-- A caller whose code and tokens contain the callee's name only as a
proper substring of the longer identifier `myfoo`. -/
def callerMyfoo : JsonSample :=
  { func_name := "g", repo := "R", original_string := "", code := "myfoo(x)",
    code_tokens := ["myfoo", "(", "x", ")"], docstring := "", docstring_tokens := [] }

/-- A callee named `foo`. -/
def calleeFoo : JsonSample :=
  { func_name := "foo", repo := "R", original_string := "", code := "pass",
    code_tokens := ["pass"], docstring := "", docstring_tokens := [] }

/-- A caller that really calls `foo` and also mentions `myfoo`. -/
def callerUsesFoo : JsonSample :=
  { func_name := "h", repo := "R", original_string := "", code := "a = foo(b) + myfoo",
    code_tokens := ["a", "=", "foo", "(", "b", ")", "+", "myfoo"],
    docstring := "", docstring_tokens := [] }

/-- A callee whose (already dot-normalized) name contains the regex
metacharacter `(`. -/
def calleeParen : JsonSample :=
  { func_name := "f(", repo := "R", original_string := "", code := "pass",
    code_tokens := ["pass"], docstring := "", docstring_tokens := [] }

/-- **C1.**  The claim states that a new group starts exactly when the
incoming record's `repoId` differs from the `repoId` of the records already
in the current non-empty group.  The code instead compares against
`sample_group_identifier`, which is initialized to `""` and assigned only
inside the boundary branch; it therefore still holds `""` (not `"R"`) when
the second record of the stream arrives, so a stream of two records of the
same repo `R` is split into two singleton groups instead of the single
group the claim requires. -/
theorem c1_first_group_split_despite_equal_repo :
    read_input_data [some sampleF1, some sampleF2] = [[sampleF1], [sampleF2]]
      ∧ [[sampleF1], [sampleF2]] ≠ [[sampleF1, sampleF2]] := by
  constructor
  · rfl
  · decide

/-- Skipped lines (`none`) change nothing in the grouping loop. -/
theorem read_input_data_aux_filter (lines : List (Option JsonSample)) :
    ∀ ident cur, read_input_data_aux ident cur lines
      = read_input_data_aux ident cur ((lines.filterMap id).map some) := by
  induction lines with
  | nil => intro ident cur; rfl
  | cons o rest ih =>
    intro ident cur
    cases o with
    | none => simpa [read_input_data_aux] using ih ident cur
    | some raw =>
      simp only [List.filterMap_cons, id, List.map_cons, read_input_data_aux]
      split
      · exact congrArg _ (ih _ _)
      · exact ih _ _

/-- **C7.**  Lines that fail to decode (and empty lines) are skipped: they
join no group, trigger no boundary, and the groups of a stream equal the
groups of the same stream with all undecodable lines removed. -/
theorem c7_undecodable_lines_skipped (lines : List (Option JsonSample)) :
    read_input_data lines = read_input_data ((lines.filterMap id).map some) :=
  read_input_data_aux_filter lines "" []

/-- **C8.**  Scenario B: in the group `[f1, f2, f3]` of repo `R` where
`f1`'s code calls `f2` only, processing resolves exactly the edge
`f1 → f2`, sets `f1`'s negative quota to `1`, computes `f1`'s non-callee
set as exactly `f3`, and emits exactly the positive pair
`(f1, f2, true)` followed by the negative pair `(f1, f3, false)`. -/
theorem c8_scenario_b :
    resolvedCallees [sampleF1, sampleF2, sampleF3] sampleF1 (callsScenB sampleF1) = ["f2"]
      ∧ (resolvedCallees [sampleF1, sampleF2, sampleF3] sampleF1 (callsScenB sampleF1)).length = 1
      ∧ (nonCallees [sampleF1, sampleF2, sampleF3] sampleF1 (callsScenB sampleF1)).map
          Prod.fst = ["f3"]
      ∧ process_grouped_samples callsScenB [sampleF1, sampleF2, sampleF3]
          = [(sampleF1, sampleF2, true), (sampleF1, sampleF3, false)] := by
  refine ⟨by decide, by decide, by decide, by decide⟩

/-!
## Pair-count and self-call invariants (C3, C4, C5)
-/

/-- A `filterMap` whose function never fails keeps the length. -/
theorem length_filterMap_of_isSome {α β : Type} (f : α → Option β) :
    ∀ l : List α, (∀ a ∈ l, (f a).isSome) → (l.filterMap f).length = l.length := by
  intro l h
  induction l with
  | nil => rfl
  | cons a l ih =>
    obtain ⟨b, hb⟩ := Option.isSome_iff_exists.mp (h a (List.mem_cons_self a l))
    simp [List.filterMap_cons, hb, ih (fun x hx => h x (List.mem_cons_of_mem _ hx))]

/-- Every resolved callee has an entry in the other-function map: the
`unwrap` at line 256 of `match_call.rs` cannot fail. -/
theorem resolvedCallees_lookup {group : List JsonSample} {sample : JsonSample}
    {calls : List String} {c : String} (hc : c ∈ resolvedCallees group sample calls) :
    ((otherFuncs group sample).find? (fun kv => kv.1 == c)).isSome := by
  rw [resolvedCallees, List.mem_dedup, List.mem_filter] at hc
  rw [List.find?_isSome]
  obtain ⟨kv, hkv, hkvc⟩ := List.any_eq_true.mp hc.2
  exact ⟨kv, hkv, hkvc⟩

/-- One positive pair per resolved callee. -/
theorem posPairs_length (group : List JsonSample) (sample : JsonSample)
    (calls : List String) :
    (posPairs group sample calls).length = (resolvedCallees group sample calls).length := by
  refine length_filterMap_of_isSome _ _ (fun c hc => ?_)
  have := resolvedCallees_lookup hc
  obtain ⟨kv, hkv⟩ := Option.isSome_iff_exists.mp this
  simp [hkv]

/-- The shape of a positive pair: caller record, a looked-up other
function, label `true`. -/
theorem mem_posPairs {group : List JsonSample} {sample : JsonSample}
    {calls : List String} {p : JsonSample × JsonSample × Bool}
    (hp : p ∈ posPairs group sample calls) :
    ∃ kv ∈ otherFuncs group sample, p = (sample, kv.2, true) := by
  rw [posPairs, List.mem_filterMap] at hp
  obtain ⟨c, _, hfind⟩ := hp
  obtain ⟨kv, hkv, hkvp⟩ := Option.map_eq_some'.mp hfind
  exact ⟨kv, List.mem_of_find?_eq_some hkv, hkvp.symm⟩

/-- The shape of a negative pair: caller record, a non-callee entry,
label `false`. -/
theorem mem_negPairs {group : List JsonSample} {sample : JsonSample}
    {calls : List String} {p : JsonSample × JsonSample × Bool}
    (hp : p ∈ negPairs group sample calls) :
    ∃ kv ∈ nonCallees group sample calls, p = (sample, kv.2, false) := by
  rw [negPairs, List.mem_map] at hp
  obtain ⟨kv, hkv, hkvp⟩ := hp
  exact ⟨kv, List.mem_of_mem_take hkv, hkvp.symm⟩

/-- **C3.**  In every group the number of positive pairs equals the number
of distinct resolved call edges: each record (caller occurrence)
contributes exactly the number of *distinct* call-site names in its code
that resolve inside the group, so repeated call sites to the same callee
collapse to one pair. -/
theorem c3_positive_pairs_eq_distinct_edges (callsFn : JsonSample → List String)
    (group : List JsonSample) :
    (process_grouped_samples callsFn group).countP (fun p => p.2.2)
      = (group.map (fun s =>
          ((callsFn s).filter
            (fun c => (otherFuncs group s).any (fun kv => kv.1 == c))).toFinset.card)).sum := by
  rw [process_grouped_samples, List.countP_flatten, List.map_map]
  refine congrArg List.sum (List.map_congr_left (fun s _ => ?_))
  show (processSample group s (callsFn s)).countP (fun p => p.2.2) = _
  rw [processSample, List.countP_append]
  have hpos : (posPairs group s (callsFn s)).countP (fun p => p.2.2)
      = (posPairs group s (callsFn s)).length := by
    rw [List.countP_eq_length]
    intro p hp
    obtain ⟨kv, _, rfl⟩ := mem_posPairs hp
    rfl
  have hneg : (negPairs group s (callsFn s)).countP (fun p => p.2.2) = 0 := by
    rw [List.countP_eq_zero]
    intro p hp
    obtain ⟨kv, _, rfl⟩ := mem_negPairs hp
    simp
  rw [hpos, hneg, posPairs_length, Nat.add_zero, resolvedCallees, List.card_toFinset]

/-- **C4.**  Per caller, the number of negative pairs is exactly
`min k |nonCallees|` where `k` is its number of resolved call edges, hence
at most `k`; and a caller with zero edges contributes no pair at all. -/
theorem c4_negative_budget (group : List JsonSample) (sample : JsonSample)
    (calls : List String) :
    (processSample group sample calls).countP (fun p => !p.2.2)
        = min (resolvedCallees group sample calls).length
            (nonCallees group sample calls).length
      ∧ (processSample group sample calls).countP (fun p => !p.2.2)
          ≤ (resolvedCallees group sample calls).length
      ∧ ((resolvedCallees group sample calls).length = 0
          → processSample group sample calls = []) := by
  have hcount : (processSample group sample calls).countP (fun p => !p.2.2)
      = min (resolvedCallees group sample calls).length
          (nonCallees group sample calls).length := by
    rw [processSample, List.countP_append]
    have hpos : (posPairs group sample calls).countP (fun p => !p.2.2) = 0 := by
      rw [List.countP_eq_zero]
      intro p hp
      obtain ⟨kv, _, rfl⟩ := mem_posPairs hp
      simp
    have hneg : (negPairs group sample calls).countP (fun p => !p.2.2)
        = (negPairs group sample calls).length := by
      rw [List.countP_eq_length]
      intro p hp
      obtain ⟨kv, _, rfl⟩ := mem_negPairs hp
      rfl
    rw [hpos, hneg, negPairs, List.length_map, List.length_take, Nat.zero_add,
      Nat.min_comm]
  refine ⟨hcount, by rw [hcount]; exact Nat.min_le_left _ _, fun h0 => ?_⟩
  have hnil : resolvedCallees group sample calls = [] := List.length_eq_zero.mp h0
  rw [processSample, posPairs, negPairs, hnil]
  rfl

/-- Membership after ordered insertion: the new pair or an old entry. -/
theorem mem_btreeInsert {k : String} {v : JsonSample}
    {l : List (String × JsonSample)} {x : String × JsonSample}
    (hx : x ∈ btreeInsert k v l) : x = (k, v) ∨ x ∈ l := by
  induction l with
  | nil => simpa [btreeInsert] using hx
  | cons kv' rest ih =>
    obtain ⟨k', v'⟩ := kv'
    rw [btreeInsert] at hx
    split at hx
    · rcases List.mem_cons.mp hx with h | h
      · exact Or.inl h
      · exact Or.inr h
    · split at hx
      · rcases List.mem_cons.mp hx with h | h
        · exact Or.inl h
        · exact Or.inr (List.mem_cons_of_mem _ h)
      · rcases List.mem_cons.mp hx with h | h
        · exact Or.inr (h ▸ List.mem_cons_self _ _)
        · rcases ih h with h' | h'
          · exact Or.inl h'
          · exact Or.inr (List.mem_cons_of_mem _ h')

/-- Every entry of the group map stores the record under its own
function name. -/
theorem buildMap_val_key {group : List JsonSample} :
    ∀ kv ∈ buildMap group, kv.2.func_name = kv.1 := by
  rw [buildMap]
  suffices h : ∀ (g : List JsonSample) (m : List (String × JsonSample)),
      (∀ kv ∈ m, kv.2.func_name = kv.1) →
      ∀ kv ∈ g.foldl (fun m s => btreeInsert s.func_name s m) m,
        kv.2.func_name = kv.1 from h group [] (by simp)
  intro g
  induction g with
  | nil => exact fun m hm => hm
  | cons s g ih =>
    intro m hm
    refine ih _ (fun kv' hkv' => ?_)
    rcases mem_btreeInsert hkv' with h | h
    · rw [h]
    · exact hm kv' h

/-- Entries of `other_funcs` carry their key as their record's name and
never the caller's own name. -/
theorem mem_otherFuncs {group : List JsonSample} {sample : JsonSample}
    {kv : String × JsonSample} (h : kv ∈ otherFuncs group sample) :
    kv.2.func_name = kv.1 ∧ kv.1 ≠ sample.func_name := by
  rw [otherFuncs] at h
  have h' := List.mem_filter.mp h
  exact ⟨buildMap_val_key _ h'.1, by simpa using h'.2⟩

/-- A caller never pairs with an entry bearing its own name. -/
theorem pair_ne_of_otherFuncs {group : List JsonSample} {sample : JsonSample}
    {kv : String × JsonSample} (hkv : kv ∈ otherFuncs group sample) :
    sample.func_name ≠ kv.2.func_name := by
  obtain ⟨h1, h2⟩ := mem_otherFuncs hkv
  intro h
  rw [h1] at h
  exact h2 h.symm

/-- **C5.**  Every emitted pair, positive or negative, relates a caller
and a callee with different function names: self-calls never produce
pairs, because the record's own name is removed from the candidate map
before both call resolution and negative sampling. -/
theorem c5_no_self_pairs (callsFn : JsonSample → List String)
    (group : List JsonSample) :
    (process_grouped_samples callsFn group).all
        (fun p => p.1.func_name != p.2.1.func_name) = true := by
  rw [List.all_eq_true]
  intro p hp
  rw [process_grouped_samples, List.mem_flatten] at hp
  obtain ⟨l, hl, hpl⟩ := hp
  obtain ⟨s, _, rfl⟩ := List.mem_map.mp hl
  rw [processSample, List.mem_append] at hpl
  rcases hpl with hp' | hp'
  · obtain ⟨kv, hkv, rfl⟩ := mem_posPairs hp'
    simpa [bne_iff_ne] using pair_ne_of_otherFuncs hkv
  · obtain ⟨kv, hkv, rfl⟩ := mem_negPairs hp'
    simpa [bne_iff_ne] using pair_ne_of_otherFuncs (List.mem_filter.mp hkv).1

/-!
## Determinism of negative sampling (C6)
-/

/-- `charListLt` is transitive. -/
theorem charListLt_trans : ∀ {a b c : List Char},
    charListLt a b = true → charListLt b c = true → charListLt a c = true := by
  intro a
  induction a with
  | nil =>
    intro b c hab hbc
    cases b with
    | nil => exact absurd hab (by simp [charListLt])
    | cons y bs =>
      cases c with
      | nil => exact absurd hbc (by simp [charListLt])
      | cons z cs => simp [charListLt]
  | cons x as ih =>
    intro b c hab hbc
    cases b with
    | nil => exact absurd hab (by simp [charListLt])
    | cons y bs =>
      cases c with
      | nil => exact absurd hbc (by simp [charListLt])
      | cons z cs =>
        rw [charListLt] at hab hbc ⊢
        by_cases hxy : x < y
        · by_cases hyz : y < z
          · rw [if_pos (lt_trans hxy hyz)]
          · rw [if_neg hyz] at hbc
            by_cases hzy : z < y
            · rw [if_pos hzy] at hbc; exact absurd hbc (by simp)
            · have : y = z := le_antisymm (not_lt.mp hzy) (not_lt.mp hyz)
              rw [if_pos (this ▸ hxy)]
        · rw [if_neg hxy] at hab
          by_cases hyx : y < x
          · rw [if_pos hyx] at hab; exact absurd hab (by simp)
          · rw [if_neg hyx] at hab
            have hxe : x = y := le_antisymm (not_lt.mp hyx) (not_lt.mp hxy)
            by_cases hyz : y < z
            · rw [if_pos (hxe ▸ hyz)]
            · rw [if_neg hyz] at hbc
              by_cases hzy : z < y
              · rw [if_pos hzy] at hbc; exact absurd hbc (by simp)
              · rw [if_neg hzy] at hbc
                have hye : y = z := le_antisymm (not_lt.mp hzy) (not_lt.mp hyz)
                subst hxe
                subst hye
                rw [if_neg (lt_irrefl x), if_neg (lt_irrefl x), ih hab hbc]

/-- `charListLt` is trichotomous. -/
theorem charListLt_total : ∀ (a b : List Char),
    charListLt a b = true ∨ a = b ∨ charListLt b a = true := by
  intro a
  induction a with
  | nil =>
    intro b
    cases b with
    | nil => exact Or.inr (Or.inl rfl)
    | cons y bs => exact Or.inl (by simp [charListLt])
  | cons x as ih =>
    intro b
    cases b with
    | nil => exact Or.inr (Or.inr (by simp [charListLt]))
    | cons y bs =>
      rcases lt_trichotomy x y with h | h | h
      · exact Or.inl (by rw [charListLt, if_pos h])
      · subst h
        rcases ih bs with h' | h' | h'
        · exact Or.inl (by rw [charListLt, if_neg (lt_irrefl x), if_neg (lt_irrefl x), h'])
        · exact Or.inr (Or.inl (by rw [h']))
        · exact Or.inr (Or.inr (by rw [charListLt, if_neg (lt_irrefl x), if_neg (lt_irrefl x), h']))
      · exact Or.inr (Or.inr (by rw [charListLt, if_pos h]))

/-- `strLt` is transitive. -/
theorem strLt_trans {a b c : String} (hab : strLt a b = true)
    (hbc : strLt b c = true) : strLt a c = true :=
  charListLt_trans hab hbc

/-- `strLt` is trichotomous. -/
theorem strLt_cases (a b : String) : strLt a b = true ∨ a = b ∨ strLt b a = true := by
  rcases charListLt_total a.toList b.toList with h | h | h
  · exact Or.inl h
  · exact Or.inr (Or.inl (String.toList_inj.mp h))
  · exact Or.inr (Or.inr h)

/-- Ordered insertion preserves strict sortedness by key. -/
theorem btreeInsert_pairwise {k : String} {v : JsonSample}
    {l : List (String × JsonSample)}
    (hl : l.Pairwise (fun a b => strLt a.1 b.1 = true)) :
    (btreeInsert k v l).Pairwise (fun a b => strLt a.1 b.1 = true) := by
  induction l with
  | nil => simp [btreeInsert]
  | cons kv' rest ih =>
    obtain ⟨k', v'⟩ := kv'
    rw [List.pairwise_cons] at hl
    obtain ⟨hk', hrest⟩ := hl
    rw [btreeInsert]
    split
    next hlt =>
      refine List.Pairwise.cons ?_ (List.Pairwise.cons hk' hrest)
      intro y hy
      rcases List.mem_cons.mp hy with rfl | hy'
      · exact hlt
      · exact strLt_trans hlt (hk' y hy')
    next hnlt =>
      split
      next heq =>
        subst heq
        exact List.Pairwise.cons hk' hrest
      next hne =>
        have hk'k : strLt k' k = true := by
          rcases strLt_cases k k' with h | h | h
          · exact absurd h hnlt
          · exact absurd h hne
          · exact h
        refine List.Pairwise.cons ?_ (ih hrest)
        intro y hy
        rcases mem_btreeInsert hy with rfl | hy'
        · exact hk'k
        · exact hk' y hy'

/-- The group map is strictly sorted by key: `BTreeMap` iteration order. -/
theorem buildMap_pairwise (group : List JsonSample) :
    (buildMap group).Pairwise (fun a b => strLt a.1 b.1 = true) := by
  rw [buildMap]
  suffices h : ∀ (g : List JsonSample) (m : List (String × JsonSample)),
      m.Pairwise (fun a b => strLt a.1 b.1 = true) →
      (g.foldl (fun m s => btreeInsert s.func_name s m) m).Pairwise
        (fun a b => strLt a.1 b.1 = true) from h group [] List.Pairwise.nil
  intro g
  induction g with
  | nil => exact fun m hm => hm
  | cons s g ih => exact fun m hm => ih _ (btreeInsert_pairwise hm)

/-- **C6.**  Negative sampling is deterministic: the pairs depend only on
the *set* of resolved callees (not on any enumeration order of the
callee `HashSet`), and the negative pairs walk the caller's non-callee
set in strictly ascending lexicographic key order. -/
theorem c6_negative_sampling_deterministic (group : List JsonSample)
    (sample : JsonSample) (calls₁ calls₂ : List String)
    (h : (resolvedCallees group sample calls₁).toFinset
        = (resolvedCallees group sample calls₂).toFinset) :
    negPairs group sample calls₁ = negPairs group sample calls₂
      ∧ ((negPairs group sample calls₁).map (fun p => p.2.1.func_name)).Pairwise
          (fun a b => strLt a b = true) := by
  have hnodup : ∀ calls, (resolvedCallees group sample calls).Nodup :=
    fun calls => by rw [resolvedCallees]; exact List.nodup_dedup _
  have hlen : (resolvedCallees group sample calls₁).length
      = (resolvedCallees group sample calls₂).length := by
    rw [← List.toFinset_card_of_nodup (hnodup calls₁),
      ← List.toFinset_card_of_nodup (hnodup calls₂), h]
  have hmem : ∀ c : String, ((resolvedCallees group sample calls₁).contains c)
      = ((resolvedCallees group sample calls₂).contains c) := by
    intro c
    have h1 : (resolvedCallees group sample calls₁).contains c = true
        ↔ (resolvedCallees group sample calls₂).contains c = true := by
      rw [List.elem_iff, List.elem_iff, ← List.mem_toFinset, ← List.mem_toFinset, h]
    exact Bool.coe_iff_coe.mp h1
  have hnc : nonCallees group sample calls₁ = nonCallees group sample calls₂ := by
    rw [nonCallees, nonCallees]
    refine List.filter_congr (fun kv _ => ?_)
    rw [hmem kv.1]
  have hneg : negPairs group sample calls₁ = negPairs group sample calls₂ := by
    rw [negPairs, negPairs, hnc, hlen]
  refine ⟨hneg, ?_⟩
  rw [negPairs, List.map_map]
  have hsub : ((nonCallees group sample calls₁).take
      (resolvedCallees group sample calls₁).length).Pairwise
        (fun a b => strLt a.1 b.1 = true) := by
    refine List.Pairwise.sublist ?_ (buildMap_pairwise group)
    exact (List.take_sublist _ _).trans
      ((List.filter_sublist _).trans (List.filter_sublist _))
  have hnames : ((nonCallees group sample calls₁).take
      (resolvedCallees group sample calls₁).length).map
        ((fun p : JsonSample × JsonSample × Bool => p.2.1.func_name)
          ∘ (fun kv : String × JsonSample => (sample, kv.2, false)))
      = ((nonCallees group sample calls₁).take
          (resolvedCallees group sample calls₁).length).map (fun kv => kv.1) := by
    refine List.map_congr_left (fun kv hkv => ?_)
    show kv.2.func_name = kv.1
    exact (mem_otherFuncs
      (List.mem_filter.mp (List.mem_of_mem_take hkv)).1).1
  rw [hnames, List.pairwise_map]
  exact hsub

/-- Closed instantiation of the determinism theorem on the scenario-B
group: two call-site lists with different order, repetition and an
unresolvable name, but the same resolved-callee set, give the same
(non-empty) negative pairs, in sorted key order. -/
theorem c6_negative_sampling_deterministic_witness :
    negPairs [sampleF1, sampleF2, sampleF3] sampleF1 ["f3", "zzz"]
        = negPairs [sampleF1, sampleF2, sampleF3] sampleF1 ["f3", "f3"]
      ∧ ((negPairs [sampleF1, sampleF2, sampleF3] sampleF1 ["f3", "zzz"]).map
          (fun p => p.2.1.func_name)).Pairwise (fun a b => strLt a b = true) :=
  c6_negative_sampling_deterministic _ _ _ _ (by decide)

/-!
## Masking theorems (C2, C10)
-/

/-- **C10.**  The positive-pair masking step is partial: the callee name
`f(` (its own dot-normalization) makes the built pattern an invalid
regex — an unmatched group — so compiling it fails and the worker's
`unwrap` panics instead of emitting the pair (modelled as `none`). -/
theorem c10_metachar_name_aborts :
    normalizeSample calleeParen = calleeParen
      ∧ regexOk (buildMaskPattern calleeParen.func_name.toList) = false
      ∧ toCallJsonSample (callerUsesFoo, calleeParen, true) = none := by
  refine ⟨by decide, by decide, by decide⟩

/-- **C2 counterexample.**  A positive pair whose caller mentions the
callee's name `foo` only inside the longer identifier `myfoo`: the
emitted masked caller code and token sequence are unchanged, and the
callee's name still appears verbatim (as a substring) in both. -/
theorem c2_substring_survives_masking :
    toCallJsonSample (callerMyfoo, calleeFoo, true) = some
        { caller_code := "myfoo(x)", caller_comm := "", callee_code := "pass",
          callee_comm := "", label := true,
          caller_code_tokens := ["myfoo", "(", "x", ")"], caller_comm_tokens := [],
          callee_code_tokens := ["pass"], callee_comm_tokens := [] }
      ∧ calleeFoo.func_name.toList <:+: "myfoo(x)".toList
      ∧ calleeFoo.func_name.toList <:+: ("myfoo" : String).toList := by
  refine ⟨by decide, by decide, by decide⟩

/-- Word characters are never the metacharacters the pattern check
rejects. -/
theorem ne_of_word {a m : Char} (ha : isWordChar a = true)
    (hm : isWordChar m = false) : a ≠ m := by
  intro h
  subst h
  rw [ha] at hm
  exact absurd hm (by simp)

/-- Unfolding equation of `regexOkAux` on a cons cell. -/
theorem regexOkAux_cons (c : Char) (rest : List Char) (depth : Nat)
    (inClass : Bool) :
    regexOkAux (c :: rest) depth inClass =
      if c = '\\' then
        (match rest with
          | [] => false
          | _ :: rest' => regexOkAux rest' depth inClass)
      else if inClass then
        (if c = ']' then regexOkAux rest depth false else regexOkAux rest depth true)
      else if c = '(' then regexOkAux rest (depth + 1) false
      else if c = ')' then
        (match depth with
          | 0 => false
          | d + 1 => regexOkAux rest d false)
      else if c = '[' then regexOkAux rest depth true
      else regexOkAux rest depth false := by
  rw [regexOkAux.eq_def]

/-- The pattern built from a name of word characters compiles. -/
theorem regexOk_of_word {name : List Char}
    (hw : ∀ c ∈ name, isWordChar c = true) :
    regexOk (buildMaskPattern name) = true := by
  suffices h : ∀ (n : List Char), (∀ c ∈ n, isWordChar c = true) →
      regexOkAux (n ++ ['\\', 'b']) 0 false = true by
    have step : regexOkAux ('\\' :: 'b' :: (name ++ ['\\', 'b'])) 0 false
        = regexOkAux (name ++ ['\\', 'b']) 0 false := rfl
    rw [regexOk, buildMaskPattern, step]
    exact h name hw
  intro n
  induction n with
  | nil => intro _; decide
  | cons a as ih =>
    intro hw'
    have ha := hw' a (List.mem_cons_self _ _)
    rw [List.cons_append, regexOkAux_cons]
    rw [if_neg (ne_of_word ha (by decide))]
    rw [if_neg (by simp)]
    rw [if_neg (ne_of_word ha (by decide))]
    rw [if_neg (ne_of_word ha (by decide))]
    rw [if_neg (ne_of_word ha (by decide))]
    exact ih (fun c hc => hw' c (List.mem_cons_of_mem _ hc))

/-- A name of word characters is never a literal prefix of a string
headed by a non-word character. -/
theorem litPre_not_word {name : List Char} (hn : name ≠ [])
    (hw : ∀ c ∈ name, isWordChar c = true) {d : Char}
    (hd : isWordChar d = false) (t : List Char) : litPre name (d :: t) = false := by
  cases name with
  | nil => exact absurd rfl hn
  | cons a as =>
    have ha := hw a (List.mem_cons_self _ _)
    rw [litPre]
    rw [decide_eq_false (ne_of_word ha hd)]
    rfl

/-- A boundary-delimited match of a word-character name at the head of
`w ++ d :: t` (with `w` word characters and `d` a non-word character)
happens exactly when the name is the whole run `w`. -/
theorem litPre_wordRun_iff {name w : List Char} {d : Char} {t : List Char}
    (hw : ∀ c ∈ name, isWordChar c = true)
    (hww : ∀ c ∈ w, isWordChar c = true) (hd : isWordChar d = false) :
    (litPre name (w ++ d :: t) && bdryA ((w ++ d :: t).drop name.length)) = true
      ↔ name = w := by
  induction w generalizing name with
  | nil =>
    cases name with
    | nil => simp [litPre, bdryA, hd]
    | cons a as =>
      rw [List.nil_append, litPre_not_word (by simp) hw hd]
      simp
  | cons b w' ih =>
    cases name with
    | nil =>
      have hb := hww b (List.mem_cons_self _ _)
      simp [litPre, bdryA, hb]
    | cons a as =>
      rw [List.cons_append, litPre]
      by_cases hab : a = b
      · subst hab
        have hdrop : ((a :: (w' ++ d :: t)).drop (a :: as).length)
            = ((w' ++ d :: t).drop as.length) := by
          rw [List.length_cons, List.drop_succ_cons]
        rw [hdrop, decide_eq_true rfl]
        have := @ih as (fun c hc => hw c (List.mem_cons_of_mem _ hc))
          (fun c hc => hww c (List.mem_cons_of_mem _ hc))
        rw [Bool.true_and]
        rw [this]
        constructor
        · intro h'; rw [h']
        · intro h'; exact (List.cons.injEq _ _ _ _).mp h' |>.2
      · rw [decide_eq_false hab]
        simp [hab]

/-- Scanning for a boundary occurrence skips a position whose preceding
character is a word character. -/
theorem hasBOcc_cons_word {name : List Char} {p : Char}
    (hp : isWordChar p = true) (c : Char) (s : List Char) :
    hasBOcc name (some p) (c :: s) = hasBOcc name (some c) s := by
  rw [hasBOcc]
  have hb : bdry (some p) = false := by rw [bdry, hp]; rfl
  rw [hb, Bool.false_and, Bool.false_and, Bool.false_or]

/-- Passing an inserted mask never creates a boundary occurrence of a
word-character name other than `masked_func_id` itself: scanning the
output may continue after the mask with `'>'` as previous character. -/
theorem hasBOcc_mask_append {name : List Char} (hn : name ≠ [])
    (hw : ∀ c ∈ name, isWordChar c = true)
    (hne : name ≠ "masked_func_id".toList) (p : Option Char) (t : List Char) :
    hasBOcc name p (FUNC_CALL_ID_MASK.toList ++ t) = hasBOcc name (some '>') t := by
  have hmask : FUNC_CALL_ID_MASK.toList ++ t
      = '<' :: ("masked_func_id".toList ++ ('>' :: t)) := rfl
  have hform : ("masked_func_id".toList ++ ('>' :: t))
      = 'm' :: 'a' :: 's' :: 'k' :: 'e' :: 'd' :: '_' :: 'f' :: 'u' :: 'n' :: 'c' :: '_' :: 'i' :: 'd' :: '>' :: t := rfl
  rw [hmask, hasBOcc, litPre_not_word hn hw (show isWordChar '<' = false by decide)]
  rw [Bool.and_false, Bool.false_and, Bool.false_or, hform, hasBOcc]
  have hbdry : bdry (some '<') = true := by decide
  rw [hbdry, Bool.true_and, ← hform]
  have hfalse : (litPre name ("masked_func_id".toList ++ ('>' :: t))
      && bdryA (("masked_func_id".toList ++ ('>' :: t)).drop name.length)) = false := by
    rcases Bool.eq_false_or_eq_true (litPre name ("masked_func_id".toList ++ ('>' :: t))
        && bdryA (("masked_func_id".toList ++ ('>' :: t)).drop name.length)) with h | h
    · exact absurd ((litPre_wordRun_iff hw (by decide) (by decide)).mp h) hne
    · exact h
  rw [hfalse, Bool.false_or]
  rw [hasBOcc_cons_word (by decide), hasBOcc_cons_word (by decide),
    hasBOcc_cons_word (by decide), hasBOcc_cons_word (by decide),
    hasBOcc_cons_word (by decide), hasBOcc_cons_word (by decide),
    hasBOcc_cons_word (by decide), hasBOcc_cons_word (by decide),
    hasBOcc_cons_word (by decide), hasBOcc_cons_word (by decide),
    hasBOcc_cons_word (by decide), hasBOcc_cons_word (by decide),
    hasBOcc_cons_word (by decide), hasBOcc_cons_word (by decide)]

/-- `getLastD` of a non-empty list ignores the default. -/
theorem getLastD_irrel {l : List Char} (hl : l ≠ []) (d₁ d₂ : Char) :
    l.getLastD d₁ = l.getLastD d₂ := by
  cases l with
  | nil => exact absurd rfl hl
  | cons a l => rw [List.getLastD_cons, List.getLastD_cons]

/-- The defaulted last element of a non-empty list is an element. -/
theorem getLastD_mem {l : List Char} (hl : l ≠ []) (d : Char) :
    l.getLastD d ∈ l := by
  induction l generalizing d with
  | nil => exact absurd rfl hl
  | cons a l ih =>
    rw [List.getLastD_cons]
    cases l with
    | nil => simp
    | cons b l' => exact List.mem_cons_of_mem _ (ih (by simp) a)

/-- The mask begins with `<`, so a word-character name is never a literal
prefix of masked output starting at a mask. -/
theorem litPre_mask_head {u : List Char} (hu : u ≠ [])
    (hw : ∀ c ∈ u, isWordChar c = true) (rest : List Char) :
    litPre u (FUNC_CALL_ID_MASK.toList ++ rest) = false :=
  litPre_not_word hu hw (show isWordChar '<' = false by decide)
    (("masked_func_id".toList ++ ['>']) ++ rest)

/-- A word-character prefix of the scan output was copied verbatim from
the input, after which the output continues as the scan of the
corresponding input suffix (with the fuel spent on the copies). -/
theorem litPre_maskScan {name : List Char} :
    ∀ (u : List Char), u ≠ [] → (∀ c ∈ u, isWordChar c = true) →
    ∀ (t : List Char) (fuel : Nat) (p : Option Char),
      litPre u (maskScan name FUNC_CALL_ID_MASK.toList fuel p t) = true →
      litPre u t = true
        ∧ (maskScan name FUNC_CALL_ID_MASK.toList fuel p t).drop u.length
            = maskScan name FUNC_CALL_ID_MASK.toList (fuel - u.length)
                (some (u.getLastD ' ')) (t.drop u.length) := by
  intro u
  induction u with
  | nil => exact fun hu => absurd rfl hu
  | cons a u' ih =>
    intro _ hw t fuel p hpre
    cases fuel with
    | zero =>
      refine ⟨by simpa only [maskScan] using hpre, ?_⟩
      simp only [maskScan, Nat.zero_sub]
    | succ f =>
      cases t with
      | nil =>
        rw [maskScan] at hpre
        exact absurd hpre (by rw [litPre]; simp)
      | cons c t' =>
        by_cases hcond : ¬ name.isEmpty ∧ bdry p ∧ litPre name (c :: t')
            ∧ bdryA ((c :: t').drop name.length)
        · rw [maskScan, if_pos hcond] at hpre
          rw [litPre_mask_head (by simp) hw] at hpre
          exact absurd hpre (by simp)
        · rw [maskScan, if_neg hcond] at hpre ⊢
          rw [litPre, Bool.and_eq_true] at hpre
          obtain ⟨hac, hrest⟩ := hpre
          have hac' : a = c := of_decide_eq_true hac
          subst hac'
          cases u' with
          | nil =>
            constructor
            · simp [litPre]
            · rw [List.length_cons, List.length_nil, List.drop_succ_cons,
                List.drop_succ_cons, List.drop_zero, List.drop_zero,
                Nat.succ_sub_one, List.getLastD_cons, List.getLastD_nil]
          | cons b u'' =>
            obtain ⟨h1, h2⟩ := ih (by simp)
              (fun x hx => hw x (List.mem_cons_of_mem _ hx)) t' f (some a) hrest
            constructor
            · simp [litPre, h1]
            · rw [List.length_cons, List.drop_succ_cons, List.drop_succ_cons,
                Nat.succ_sub_succ, List.getLastD_cons, h2,
                getLastD_irrel (show b :: u'' ≠ [] by simp) a ' ']

/-- After a copied word character, the scan output cannot begin a word
boundary: its head is a word character. -/
theorem bdryA_maskScan_word {name : List Char} {lc d : Char}
    (hlc : isWordChar lc = true) (hd : isWordChar d = true)
    (F : Nat) (r : List Char) :
    bdryA (maskScan name FUNC_CALL_ID_MASK.toList F (some lc) (d :: r)) = false := by
  cases F with
  | zero => rw [maskScan, bdryA, hd]; rfl
  | succ g =>
    have hcondf : ¬ (¬ name.isEmpty ∧ bdry (some lc) ∧ litPre name (d :: r)
        ∧ bdryA ((d :: r).drop name.length)) := by
      intro hcond'
      have h := hcond'.2.1
      rw [bdry, hlc] at h
      exact absurd h (by simp)
    rw [maskScan, if_neg hcondf, bdryA, hd]
    rfl

/-- Main lemma: the scan output contains no word-boundary occurrence of
the (non-empty, word-character, non-`masked_func_id`) name.  `p` is the
previous character of the original string, `q` the previous character of
the output at the same position; they may disagree only right after a
replacement, where the input continues with a non-word character. -/
theorem maskScan_no_bocc {name : List Char} (hn : name ≠ [])
    (hw : ∀ c ∈ name, isWordChar c = true)
    (hne : name ≠ "masked_func_id".toList) :
    ∀ (fuel : Nat) (s : List Char) (p q : Option Char), s.length ≤ fuel →
      (bdry q = true → bdry p = true ∨ bdryA s = true) →
      hasBOcc name q (maskScan name FUNC_CALL_ID_MASK.toList fuel p s) = false := by
  intro fuel
  induction fuel with
  | zero =>
    intro s p q hlen _
    rw [Nat.le_zero, List.length_eq_zero] at hlen
    subst hlen
    rfl
  | succ f ih =>
    intro s p q hlen hinv
    cases s with
    | nil => rfl
    | cons c s' =>
      by_cases hcond : ¬ name.isEmpty ∧ bdry p ∧ litPre name (c :: s')
          ∧ bdryA ((c :: s').drop name.length)
      · rw [maskScan, if_pos hcond, hasBOcc_mask_append hn hw hne]
        apply ih
        · rw [List.length_drop]
          have h1 : 0 < name.length := List.length_pos.mpr hn
          have h2 : s'.length + 1 ≤ f + 1 := by simpa using hlen
          omega
        · exact fun _ => Or.inr hcond.2.2.2
      · rw [maskScan, if_neg hcond, hasBOcc]
        have htail : hasBOcc name (some c)
            (maskScan name FUNC_CALL_ID_MASK.toList f (some c) s') = false :=
          ih s' (some c) (some c) (by simpa using hlen) (fun h => Or.inl h)
        rw [htail, Bool.or_false]
        by_cases hq : bdry q = true
        · rw [hq, Bool.true_and]
          rcases hinv hq with hbp | hbs
          · have heq : (c :: maskScan name FUNC_CALL_ID_MASK.toList f (some c) s')
                = maskScan name FUNC_CALL_ID_MASK.toList (f + 1) p (c :: s') := by
              rw [maskScan, if_neg hcond]
            rw [heq]
            rcases Bool.eq_false_or_eq_true (litPre name
                (maskScan name FUNC_CALL_ID_MASK.toList (f + 1) p (c :: s'))) with hlp | hlp
            · obtain ⟨hpre0, hdrop⟩ :=
                litPre_maskScan name hn hw (c :: s') (f + 1) p hlp
              have hba : bdryA ((c :: s').drop name.length) = false := by
                rcases Bool.eq_false_or_eq_true
                    (bdryA ((c :: s').drop name.length)) with hba | hba
                · exact absurd ⟨by simpa using hn, hbp, hpre0, hba⟩ hcond
                · exact hba
              rw [hlp, Bool.true_and, hdrop]
              cases hrest : (c :: s').drop name.length with
              | nil =>
                rw [hrest] at hba
                exact absurd hba (by rw [bdryA]; simp)
              | cons d r =>
                rw [hrest] at hba
                rw [bdryA] at hba
                have hd : isWordChar d = true := by simpa using hba
                exact bdryA_maskScan_word
                  (hw _ (getLastD_mem hn ' ')) hd _ _
            · rw [hlp, Bool.false_and]
          · rw [bdryA] at hbs
            have hcw : isWordChar c = false := by simpa using hbs
            rw [litPre_not_word hn hw hcw, Bool.false_and]
        · have hq' : bdry q = false := by simpa using hq
          rw [hq', Bool.false_and, Bool.false_and]

/-- No word-boundary occurrence of the name survives in the masked code. -/
theorem maskCode_no_bocc {name code : List Char} (hn : name ≠ [])
    (hw : ∀ c ∈ name, isWordChar c = true)
    (hne : name ≠ "masked_func_id".toList) :
    hasBOcc name none (maskCode name FUNC_CALL_ID_MASK.toList code) = false :=
  maskScan_no_bocc hn hw hne code.length code none none le_rfl (fun _ => Or.inl rfl)

/-- Unfolding of the positive-pair emission step. -/
theorem toCallJsonSample_true (caller callee : JsonSample) :
    toCallJsonSample (caller, callee, true)
      = if regexOk (buildMaskPattern callee.func_name.toList) then
          some
            { caller_code := String.mk (maskCode callee.func_name.toList
                FUNC_CALL_ID_MASK.toList caller.code.toList)
              caller_comm := caller.docstring
              callee_code := callee.code
              callee_comm := callee.docstring
              label := true
              caller_code_tokens := caller.code_tokens.map
                (fun t => if t = callee.func_name then FUNC_CALL_ID_MASK else t)
              caller_comm_tokens := caller.docstring_tokens
              callee_code_tokens := callee.code_tokens
              callee_comm_tokens := callee.docstring_tokens }
        else none := rfl

/-- **C2 (amended).**  For every emitted positive pair whose callee name
is a non-empty word-character identifier other than `masked_func_id`,
the pair is emitted (the pattern compiles), every caller token equal to
the callee's name is replaced by the mask (the name is not among the
masked tokens), and every word-boundary-delimited occurrence of the name
in the caller's code is replaced (no boundary-delimited occurrence
remains in the masked code).  The name may still appear as a proper
substring of a longer identifier or token — see the counterexample. -/
theorem c2_word_boundary_masking (caller callee : JsonSample)
    (hn : callee.func_name.toList ≠ [])
    (hw : ∀ c ∈ callee.func_name.toList, isWordChar c = true)
    (hne : callee.func_name ≠ "masked_func_id") :
    ∃ out, toCallJsonSample (caller, callee, true) = some out
      ∧ (∀ t ∈ out.caller_code_tokens, t ≠ callee.func_name)
      ∧ hasBOcc callee.func_name.toList none out.caller_code.toList = false := by
  have hok : regexOk (buildMaskPattern callee.func_name.toList) = true :=
    regexOk_of_word hw
  rw [toCallJsonSample_true, if_pos hok]
  refine ⟨_, rfl, ?_, ?_⟩
  · intro t ht
    obtain ⟨t0, _, rfl⟩ := List.mem_map.mp ht
    by_cases h : t0 = callee.func_name
    · rw [if_pos h]
      intro hmask
      have hlt := hw '<' (by rw [← hmask]; decide)
      exact absurd hlt (by decide)
    · rw [if_neg h]
      exact h
  · exact maskCode_no_bocc hn hw (fun hc => hne (String.toList_inj.mp hc))

/-- Closed instantiation of the amended masking theorem: callee `foo`,
caller calling `foo` and also containing the longer identifier `myfoo`. -/
theorem c2_word_boundary_masking_witness :
    calleeFoo.func_name.toList ≠ []
      ∧ (∀ c ∈ calleeFoo.func_name.toList, isWordChar c = true)
      ∧ calleeFoo.func_name ≠ "masked_func_id"
      ∧ ∃ out, toCallJsonSample (callerUsesFoo, calleeFoo, true) = some out
          ∧ (∀ t ∈ out.caller_code_tokens, t ≠ calleeFoo.func_name)
          ∧ hasBOcc calleeFoo.func_name.toList none out.caller_code.toList = false :=
  ⟨by decide, by decide, by decide,
    c2_word_boundary_masking callerUsesFoo calleeFoo (by decide) (by decide) (by decide)⟩
